import Mathlib

/-!
Verification model of the UTXO-selection and transaction-assembly engine of
pktwallet (createtx.go): the eligibility filter, per-address selection
groups, the selector with its cross-address fallback, and the orchestration
in txToOutputs.  External collaborators (storage iteration, the transaction
authoring package, signing and script validation) are taken as parameters.
-/

namespace Pktd

/-- A transaction outpoint: source transaction id plus output index.  The
32-byte txid array, compared with bytes.Compare in the source, is modelled
as a Nat with its natural order. -/
structure OutPoint where
  hash : Nat
  index : Nat
deriving DecidableEq

/-- The fields of dbstructs.Unspent that createtx.go reads: outpoint, owning
address, value, containing block height (with -1 as the unconfirmed
sentinel) and the coinbase-origin flag.  The pkScript bytes play no role in
selection and are omitted. -/
structure Unspent where
  op : OutPoint
  address : String
  value : Int
  height : Int
  fromCoinBase : Bool
deriving DecidableEq

/-- gods utils.Comparator specialised to Unspent keys. -/
abbrev Cmp := Unspent → Unspent → Int

/-- Three-way comparison of naturals, as the gods comparators return it. -/
def cmpNat (a b : Nat) : Int :=
  if a < b then -1 else if b < a then 1 else 0

/-- NilComparator: compares by txid then output index.  The source also
calls utils.Int64Comparator on the two values but discards its result, so
that call has no effect and is omitted. -/
def NilComparator (a b : Unspent) : Int :=
  let txidCmp := cmpNat a.op.hash b.op.hash
  if txidCmp = 0 then cmpNat a.op.index b.op.index else txidCmp

/-- PreferOldest: oldest outputs first, ties broken by NilComparator. -/
def PreferOldest (a b : Unspent) : Int :=
  if a.height < b.height then -1
  else if b.height < a.height then 1
  else NilComparator a b

/-- PreferBiggest: biggest coin value first, ties broken by NilComparator. -/
def PreferBiggest (a b : Unspent) : Int :=
  if a.value < b.value then 1
  else if b.value < a.value then -1
  else NilComparator a b

/-- Maximum number of inputs which will be included in a transaction. -/
def MaxInputsPerTx : Nat := 1460

/-- Maximum number of inputs when at least one input is legacy non-segwit. -/
def MaxInputsPerTxLegacy : Nat := 499

/-- A gods red-black tree with Unspent keys, represented by its in-order
key list.  Put of a comparator-equal key only overwrites the stored value,
keeping the original key, so the key list is unchanged in that case. -/
def treePut (cmp : Cmp) (k : Unspent) : List Unspent → List Unspent
  | [] => [k]
  | x :: xs =>
    if cmp k x < 0 then k :: x :: xs
    else if cmp k x = 0 then x :: xs
    else x :: treePut cmp k xs

/-- Tree.Remove: removes the (at most one) in-order key that the comparator
considers equal to k. -/
def treeRemove (cmp : Cmp) (k : Unspent) : List Unspent → List Unspent
  | [] => []
  | x :: xs => if cmp k x = 0 then xs else x :: treeRemove cmp k xs

/-- Tree.Right().Key: the in-order maximum key. -/
def treeRight (l : List Unspent) : Option Unspent := l.getLast?

/-- amountCount: a per-address selection group, or the combined fallback
pool: running value total, segwit-capability flag, and the credit tree. -/
structure AmountCount where
  amount : Int
  isSegwit : Bool
  credits : List Unspent
deriving DecidableEq

/-- amountCount.overLimit from the source, structured exactly as its
if/else-if chain. -/
def AmountCount.overLimit (a : AmountCount) (maxInputs : Int) : Bool :=
  let count : Int := a.credits.length
  if 0 < maxInputs then decide (maxInputs < count)
  else if count < (MaxInputsPerTxLegacy : Int) then false
  else if a.isSegwit && decide (count < (MaxInputsPerTx : Int)) then false
  else true

/-- enough.IsEnough: the externally supplied sufficiency policy, with
WellIsIt(count, isSegwit, amount) and the IsSweeping flag. -/
structure IsEnough where
  wellIsIt : Nat → Bool → Int → Bool
  isSweeping : Bool

/-- eligibleOutputs: the final selected credits plus the exclusion
bookkeeping returned by findEligibleOutputs. -/
structure EligibleOutputs where
  credits : List Unspent
  unconfirmedCount : Nat
  unconfirmedAmt : Int
  unusedCount : Nat
  unusedAmt : Int
deriving DecidableEq

/-- Modelled from the spec: the confirmation-depth helper confirms of
pktwallet is not among the sampled sources.  Per the spec, an unmined
output carries the unconfirmed sentinel height (-1) and has confirmation
depth zero; a mined output at txHeight has depth curHeight - txHeight + 1
once the chain reaches it. -/
def confirms (txHeight curHeight : Int) : Int :=
  if txHeight = -1 ∨ curHeight < txHeight then 0 else curHeight - txHeight + 1

/-- Modelled from the spec: confirmed is the comparison of the confirmation
depth against the required minimum. -/
def confirmed (minconf txHeight curHeight : Int) : Bool :=
  decide (minconf ≤ confirms txHeight curHeight)

/-- The parameters of findEligibleOutputs, together with the wallet state it
consults: the lock set, the burn predicate of txrules.IsBurned, the
coinbase maturity from the chain parameters, and address decoding combined
with IsSegwit (a decode failure leaves the flag false). -/
structure ScanParams where
  isEnough : IsEnough
  minconf : Int
  bsHeight : Int
  inputMinHeight : Int
  inputComparator : Option Cmp
  maxInputs : Int
  coinbaseMaturity : Int
  isLocked : OutPoint → Bool
  isBurned : Unspent → Int → Bool
  isSegwitAddr : String → Bool

/-- The comparator a group tree is created with: the caller-supplied one, or
PreferBiggest when none was specified. -/
def ScanParams.cmp (P : ScanParams) : Cmp :=
  P.inputComparator.getD PreferBiggest

/-- The mutable state of the scan over the unspent-output store. -/
structure ScanState where
  unconfirmedCount : Nat
  unconfirmedAmt : Int
  unusedCount : Nat
  unusedAmt : Int
  haveAmounts : List (String × AmountCount)
  winner : Option String
  outputsToDelete : List OutPoint
  burnedOutputCount : Nat

/-- Lookup in the haveAmounts map. -/
def lookupHA : List (String × AmountCount) → String → Option AmountCount
  | [], _ => none
  | (k, v) :: t, a => if k = a then some v else lookupHA t a

/-- Store into the haveAmounts map, keeping first-insertion order. -/
def updateHA (l : List (String × AmountCount)) (k : String) (v : AmountCount) :
    List (String × AmountCount) :=
  match l with
  | [] => [(k, v)]
  | (k0, v0) :: t => if k0 = k then (k, v) :: t else (k0, v0) :: updateHA t k v

/-- The group for the address of u, created empty (with the segwit flag of
the decoded address) on first sight. -/
def groupOf (P : ScanParams) (st : ScanState) (u : Unspent) : AmountCount :=
  match lookupHA st.haveAmounts u.address with
  | some ha => ha
  | none => { amount := 0, isSegwit := P.isSegwitAddr u.address, credits := [] }

/-- The group for u after inserting u and adding its value. -/
def afterPut (P : ScanParams) (st : ScanState) (u : Unspent) : AmountCount :=
  let ha := groupOf P st u
  { amount := ha.amount + u.value, isSegwit := ha.isSegwit,
    credits := treePut P.cmp u ha.credits }

/-- The initial scan state. -/
def initState : ScanState :=
  { unconfirmedCount := 0, unconfirmedAmt := 0, unusedCount := 0,
    unusedAmt := 0, haveAmounts := [], winner := none,
    outputsToDelete := [], burnedOutputCount := 0 }

/-- The worst-ranked member of a group: the tree maximum per the group
comparator (the fallback u stands for the nil dereference the source would
panic on and is never reached on nonempty credits). -/
def worstOf (ha : AmountCount) (u : Unspent) : Unspent :=
  (treeRight ha.credits).getD u

/-- Removing one member from a group: the credit leaves the tree and its
value leaves the running total. -/
def dropWorst (cmp : Cmp) (ha : AmountCount) (worst : Unspent) : AmountCount :=
  { amount := ha.amount - worst.value, isSegwit := ha.isSegwit,
    credits := treeRemove cmp worst ha.credits }

/-- Whether the group reaching sufficiency would stay sufficient after
evicting its worst member. -/
def dropDecision (P : ScanParams) (ha1 : AmountCount) (worst1 : Unspent) : Bool :=
  P.isEnough.wellIsIt ha1.credits.length ha1.isSegwit ha1.amount &&
  P.isEnough.wellIsIt (ha1.credits.length - 1) ha1.isSegwit (ha1.amount - worst1.value)

/-- The group-insertion phase of the callback, reached by outputs that pass
every exclusion rule: insert into the per-address group, opportunistically
shed the worst member if sufficiency allows, short-circuit as winner
without a custom comparator, and apply the input-cap eviction. -/
def visitGroup (P : ScanParams) (st : ScanState) (u : Unspent) : ScanState × Bool :=
  let ha1 := afterPut P st u
  let worst1 := worstOf ha1 u
  let enough1 := P.isEnough.wellIsIt ha1.credits.length ha1.isSegwit ha1.amount
  let drop1 := dropDecision P ha1 worst1
  let ha2 := if drop1 then dropWorst P.cmp ha1 worst1 else ha1
  let st2 : ScanState :=
    { st with haveAmounts := updateHA st.haveAmounts u.address ha2,
              unusedCount := st.unusedCount + (if drop1 then 1 else 0),
              unusedAmt := st.unusedAmt + (if drop1 then worst1.value else 0) }
  if enough1 && P.inputComparator.isNone then
    ({ st2 with winner := some u.address }, true)
  else if ha2.overLimit P.maxInputs = false then (st2, false)
  else if P.isEnough.isSweeping && P.inputComparator.isNone then
    ({ st2 with winner := some u.address }, true)
  else
    ({ st2 with haveAmounts := updateHA st.haveAmounts u.address
                  (dropWorst P.cmp ha2 (worstOf ha2 u)),
                unusedCount := st2.unusedCount + 1,
                unusedAmt := st2.unusedAmt + (worstOf ha2 u).value }, false)

/-- One invocation of the ForEachUnspentOutput callback in
findEligibleOutputs: the eligibility rules in source order, then the
group-insertion phase.  The returned flag is true when the callback breaks
the scan (er.LoopBreak). -/
def visit (P : ScanParams) (st : ScanState) (u : Unspent) : ScanState × Bool :=
  if 0 ≤ u.height ∧ u.height < P.inputMinHeight then (st, false)
  else if u.fromCoinBase ∧ confirmed P.coinbaseMaturity u.height P.bsHeight = false then
    (st, false)
  else if u.fromCoinBase ∧ P.isBurned u (P.bsHeight + 1440) = true then
    (if st.outputsToDelete.length < 1000000 then
      { st with outputsToDelete := st.outputsToDelete ++ [u.op],
                burnedOutputCount := st.burnedOutputCount + 1 }
     else st, false)
  else if u.value = 0 then
    (if st.outputsToDelete.length < 1000000 then
      { st with outputsToDelete := st.outputsToDelete ++ [u.op] }
     else st, false)
  else if 0 < P.minconf ∧ confirmed P.minconf u.height P.bsHeight = false then
    ({ st with unconfirmedCount := st.unconfirmedCount + 1,
               unconfirmedAmt := st.unconfirmedAmt + u.value }, false)
  else if P.isLocked u.op = true then (st, false)
  else visitGroup P st u

/-- The scan over the store stream, stopping when the callback breaks. -/
def runScan (P : ScanParams) : List Unspent → ScanState → ScanState
  | [], st => st
  | u :: us, st =>
    let r := visit P st u
    if r.2 then r.1 else runScan P us r.1

/-- The haveAmounts groups in the (arbitrary) order a Go map range visits
them, given as the list of addresses mapOrder. -/
def orderedGroups (st : ScanState) (mapOrder : List String) :
    List (String × AmountCount) :=
  mapOrder.filterMap (fun a => (lookupHA st.haveAmounts a).map (fun ac => (a, ac)))

/-- The post-scan winner re-evaluation performed when a custom comparator
was supplied: every sufficient group overwrites the winner variable in
iteration order. -/
def rescanWinner (P : ScanParams) (gs : List (String × AmountCount))
    (w0 : Option String) : Option String :=
  gs.foldl
    (fun acc p =>
      if P.isEnough.wellIsIt p.2.credits.length p.2.isSegwit p.2.amount then some p.1
      else acc)
    w0

/-- A default Unspent, standing for the nil pointer the source would
dereference in its impossible panic branches. -/
def defaultUnspent : Unspent :=
  { op := { hash := 0, index := 0 }, address := "", value := 0,
    height := -1, fromCoinBase := false }

/-- The state of the cross-address fallback combination. -/
structure FallbackState where
  pool : AmountCount
  unusedCount : Nat
  unusedAmt : Int
  done : Bool

/-- The inner eviction loop of the fallback: while the combined pool is
over its input cap, remove the worst member (the PreferBiggest maximum) and
book it as unused.  The fuel argument bounds the recursion; one unit per
pool member always suffices because each round removes a member. -/
def evictLoop (P : ScanParams) : Nat → FallbackState → FallbackState
  | 0, fb => fb
  | fuel + 1, fb =>
    if fb.pool.overLimit P.maxInputs then
      let worst := (treeRight fb.pool.credits).getD defaultUnspent
      evictLoop P fuel
        { pool := { amount := fb.pool.amount - worst.value,
                    isSegwit := fb.pool.isSegwit,
                    credits := treeRemove PreferBiggest worst fb.pool.credits },
          unusedCount := fb.unusedCount + 1,
          unusedAmt := fb.unusedAmt + worst.value,
          done := fb.done }
    else fb

/-- Folding one address group into the combined fallback pool: once done,
later groups are only booked as unused; otherwise the group members are put
into the pool, the segwit flag is intersected, the cap eviction loop runs,
and sufficiency decides whether folding stops.  The pool running total is
exactly as the source computes it. -/
def foldOne (P : ScanParams) (fb : FallbackState) (g : String × AmountCount) :
    FallbackState :=
  if fb.done then
    { fb with unusedCount := fb.unusedCount + g.2.credits.length,
              unusedAmt := fb.unusedAmt + g.2.amount }
  else
    let pool1 : AmountCount :=
      { amount := fb.pool.amount,
        isSegwit := fb.pool.isSegwit && g.2.isSegwit,
        credits := g.2.credits.foldl (fun c u => treePut PreferBiggest u c) fb.pool.credits }
    let wasOver := pool1.overLimit P.maxInputs
    let fb1 := evictLoop P (pool1.credits.length + 1) { fb with pool := pool1 }
    if P.isEnough.isSweeping && !wasOver then fb1
    else if P.isEnough.wellIsIt fb1.pool.credits.length fb1.pool.isSegwit fb1.pool.amount then
      { fb1 with done := true }
    else fb1

/-- The full result of findEligibleOutputs, keeping the internal final
state so that invariants about groups and the fallback pool can be stated. -/
structure ScanResultFull where
  out : EligibleOutputs
  finalState : ScanState
  winner : Option String
  pool : Option AmountCount

instance : Inhabited AmountCount := ⟨{ amount := 0, isSegwit := false, credits := [] }⟩

/-- The final scan state of a findEligibleOutputs call. -/
def scanFinal (P : ScanParams) (stream : List Unspent) : ScanState :=
  runScan P stream initState

/-- The winner after the post-scan phase: the scan winner, replaced by the
re-evaluation result when a custom comparator was supplied. -/
def finalWinner (P : ScanParams) (st : ScanState)
    (gs : List (String × AmountCount)) : Option String :=
  if P.inputComparator.isSome then rescanWinner P gs st.winner else st.winner

/-- The eligible outputs on the single-address winner path: the winner
group members are the selected set and every other group is booked as
unused. -/
def winnerEO (st : ScanState) (gs : List (String × AmountCount)) (w : String) :
    EligibleOutputs :=
  { credits := ((lookupHA st.haveAmounts w).getD default).credits,
    unconfirmedCount := st.unconfirmedCount,
    unconfirmedAmt := st.unconfirmedAmt,
    unusedCount := st.unusedCount +
      ((gs.filter (fun p => p.1 ≠ w)).map (fun p => p.2.credits.length)).sum,
    unusedAmt := st.unusedAmt +
      ((gs.filter (fun p => p.1 ≠ w)).map (fun p => p.2.amount)).sum }

/-- The initial fallback state: an empty PreferBiggest pool whose segwit
flag starts true, carrying over the unused bookkeeping of the scan. -/
def initFallback (st : ScanState) : FallbackState :=
  { pool := { amount := 0, isSegwit := true, credits := [] },
    unusedCount := st.unusedCount, unusedAmt := st.unusedAmt, done := false }

/-- The fallback combination: fold every group into the combined pool in
map-iteration order. -/
def fallbackFB (P : ScanParams) (st : ScanState)
    (gs : List (String × AmountCount)) : FallbackState :=
  gs.foldl (foldOne P) (initFallback st)

/-- findEligibleOutputs: runs the scan over the stream of stored unspents
(already restricted to the requested addresses by the store iteration),
then the custom-comparator winner re-evaluation, the single-address winner
path, or the cross-address fallback.  mapOrder gives the order in which the
Go map ranges over the per-address groups. -/
def findEligibleOutputsFull (P : ScanParams) (stream : List Unspent)
    (mapOrder : List String) : ScanResultFull :=
  match finalWinner P (scanFinal P stream)
      (orderedGroups (scanFinal P stream) mapOrder) with
  | some w =>
    { out := winnerEO (scanFinal P stream)
        (orderedGroups (scanFinal P stream) mapOrder) w,
      finalState := scanFinal P stream, winner := some w, pool := none }
  | none =>
    { out :=
        { credits := (fallbackFB P (scanFinal P stream)
            (orderedGroups (scanFinal P stream) mapOrder)).pool.credits,
          unconfirmedCount := (scanFinal P stream).unconfirmedCount,
          unconfirmedAmt := (scanFinal P stream).unconfirmedAmt,
          unusedCount := (fallbackFB P (scanFinal P stream)
            (orderedGroups (scanFinal P stream) mapOrder)).unusedCount,
          unusedAmt := (fallbackFB P (scanFinal P stream)
            (orderedGroups (scanFinal P stream) mapOrder)).unusedAmt },
      finalState := scanFinal P stream, winner := none,
      pool := some (fallbackFB P (scanFinal P stream)
        (orderedGroups (scanFinal P stream) mapOrder)).pool }

/-- findEligibleOutputs as the caller sees it: the eligible outputs plus the
outpoints queued for deletion (performed in the same storage transaction). -/
def findEligibleOutputs (P : ScanParams) (stream : List Unspent)
    (mapOrder : List String) : EligibleOutputs × List OutPoint :=
  let r := findEligibleOutputsFull P stream mapOrder
  (r.out, r.finalState.outputsToDelete)

/-- SendMode of the spend request: unsigned-only, sign-but-not-broadcast,
or sign-and-broadcast.  The middle constructor is modelled from the spec;
the source file only names SendModeUnsigned and SendModeBcasted. -/
inductive SendMode
  | unsigned
  | signedOnly
  | bcasted
deriving DecidableEq

/-- The draft returned by the authoring collaborator: inputs and the change
output index (-1 when no change output exists). -/
structure AuthoredTx where
  inputs : List OutPoint
  changeIndex : Int
deriving DecidableEq

/-- The failure signal of txauthor.NewUnsignedTransaction: the
ImpossibleTxError condition, or any other error. -/
inductive AuthorError
  | impossibleTx
  | otherError
deriving DecidableEq

/-- The classified failures txToOutputs can return. -/
inductive TxError
  | tooManyInputs (count : Nat) (amt : Int)
  | unconfirmedCoins (count : Nat) (amt : Int)
  | insufficientFundsRestricted
  | insufficientFundsUnrestricted
  | authorFailure
  | signOrValidateFailure
deriving DecidableEq

/-- The observable outcome of txToOutputs: the returned transaction or
error, whether the storage transaction was committed (rather than rolled
back by the deferred Rollback), and the backing store after the call. -/
structure TxResult where
  tx : Option AuthoredTx
  err : Option TxError
  committed : Bool
  storeAfter : List Unspent
deriving DecidableEq

/-- The effect of the queued deletions on the backing store. -/
def applyDeletes (store : List Unspent) (dels : List OutPoint) : List Unspent :=
  store.filter (fun u => !(decide (u.op ∈ dels)))

/-- The classification of an authoring failure in txToOutputs: the
impossible-transaction condition is translated through the eligibility
bookkeeping with TooManyInputs first, then UnconfirmedCoins, then
InsufficientFunds (whose message depends on whether an input-address
restriction was supplied); any other authoring error propagates as is. -/
def classifyAuthorError (eo : EligibleOutputs)
    (inputAddresses : Option (List String)) : AuthorError → TxError
  | AuthorError.otherError => TxError.authorFailure
  | AuthorError.impossibleTx =>
    if 0 < eo.unusedCount then TxError.tooManyInputs eo.unusedCount eo.unusedAmt
    else if 0 < eo.unconfirmedCount then
      TxError.unconfirmedCoins eo.unconfirmedCount eo.unconfirmedAmt
    else if inputAddresses.isSome then TxError.insufficientFundsRestricted
    else TxError.insufficientFundsUnrestricted

/-- txToOutputs: runs findEligibleOutputs inside a read-write storage
transaction, hands the selected credits to the authoring collaborator,
classifies an impossible-transaction failure through the bookkeeping,
and commits or rolls back according to the send mode.  The authoring,
signing and script-validation collaborators are parameters; the store
mutation visible after the call is the queued deletions when and only when
the transaction is committed. -/
def txToOutputs (P : ScanParams) (inputAddresses : Option (List String))
    (mode : SendMode) (store : List Unspent) (mapOrder : List String)
    (author : List Unspent → Except AuthorError AuthoredTx)
    (signValidate : AuthoredTx → Except Unit AuthoredTx) : TxResult :=
  match author (findEligibleOutputs P store mapOrder).1.credits with
  | Except.error e =>
    { tx := none,
      err := some (classifyAuthorError (findEligibleOutputs P store mapOrder).1
        inputAddresses e),
      committed := false, storeAfter := store }
  | Except.ok tx =>
    if mode = SendMode.unsigned then
      { tx := some tx, err := none, committed := true,
        storeAfter := applyDeletes store (findEligibleOutputs P store mapOrder).2 }
    else
      match signValidate tx with
      | Except.error _ =>
        { tx := none, err := some TxError.signOrValidateFailure,
          committed := false, storeAfter := store }
      | Except.ok tx1 =>
        if mode = SendMode.bcasted then
          { tx := some tx1, err := none, committed := true,
            storeAfter := applyDeletes store (findEligibleOutputs P store mapOrder).2 }
        else
          { tx := some tx1, err := none, committed := false, storeAfter := store }

/-! Concrete fixtures used by the witnesses and counterexamples. -/

/-- A sufficiency policy that is never satisfied (a target far above all
fixtures), with no sweep. -/
def enoughNever : IsEnough := { wellIsIt := fun _ _ _ => false, isSweeping := false }

/-- A sweeping request: no fixed target. -/
def enoughSweep : IsEnough := { wellIsIt := fun _ _ _ => false, isSweeping := true }

/-- Base parameters: minconf 1, chain tip at height 100, no restrictions,
no custom comparator, no cap override, nothing locked or burned, all
addresses legacy non-segwit. -/
def Pbase : ScanParams :=
  { isEnough := enoughNever, minconf := 1, bsHeight := 100, inputMinHeight := 0,
    inputComparator := none, maxInputs := 0, coinbaseMaturity := 100,
    isLocked := fun _ => false, isBurned := fun _ _ => false,
    isSegwitAddr := fun _ => false }

def uA : Unspent := { op := ⟨1, 0⟩, address := "a", value := 3000, height := 50, fromCoinBase := false }
def uA2 : Unspent := { op := ⟨4, 0⟩, address := "a", value := 500, height := 50, fromCoinBase := false }
def uB : Unspent := { op := ⟨2, 0⟩, address := "b", value := 2000, height := 50, fromCoinBase := false }
def uC : Unspent := { op := ⟨3, 0⟩, address := "c", value := 1000, height := 50, fromCoinBase := false }
def uZero : Unspent := { op := ⟨9, 0⟩, address := "a", value := 0, height := 50, fromCoinBase := false }
def uUnmined : Unspent := { op := ⟨5, 0⟩, address := "a", value := 700, height := -1, fromCoinBase := false }

/-- An authoring collaborator that succeeds on the offered credits. -/
def authorOk : List Unspent → Except AuthorError AuthoredTx :=
  fun cs => Except.ok { inputs := cs.map (fun u => u.op), changeIndex := -1 }

/-- An authoring collaborator that reports the impossible-transaction
condition. -/
def authorImpossible : List Unspent → Except AuthorError AuthoredTx :=
  fun _ => Except.error AuthorError.impossibleTx

/-- Signing and validation that succeed unchanged. -/
def signOk : AuthoredTx → Except Unit AuthoredTx := fun t => Except.ok t

/-- Sweeping with the default comparator and default caps. -/
def PsweepDefault : ScanParams := { Pbase with isEnough := enoughSweep }

/-- Scenario B of the spec: 600 outputs of 1000 units each on one address,
txids descending so that insertions stay cheap to evaluate. -/
def stream600 : List Unspent :=
  (List.range 600).map (fun i =>
    { op := ⟨600 - i, 0⟩, address := "a", value := 1000, height := 1, fromCoinBase := false })

/-- A custom comparator (PreferOldest, one of the comparators the source
offers) and a policy satisfied by any positive amount. -/
def Pcustom : ScanParams :=
  { Pbase with inputComparator := some PreferOldest,
               isEnough := { wellIsIt := fun _ _ amt => decide (1 ≤ amt), isSweeping := false } }

/-- A policy needing two candidates, never satisfied by one address of the
fixtures alone: forces the cross-address fallback. -/
def Pcount2 : ScanParams :=
  { Pbase with isEnough := { wellIsIt := fun n _ _ => decide (2 ≤ n), isSweeping := false } }

/-- A sweep with the caller cap override maxInputs = 1. -/
def PsweepOv : ScanParams := { Pbase with maxInputs := 1, isEnough := enoughSweep }

/-- A positive minimum-height floor with the minconf = 0 override. -/
def Pfloor : ScanParams := { Pbase with inputMinHeight := 5, minconf := 0 }

/-- A policy satisfied as soon as one candidate is present. -/
def Pwin1 : ScanParams :=
  { Pbase with isEnough := { wellIsIt := fun n _ _ => decide (1 ≤ n), isSweeping := false } }

/-- A minconf 2 requirement against the fixture tip at height 100. -/
def Pminconf2 : ScanParams := { Pbase with minconf := 2 }

/-- An output mined at the tip: exactly one confirmation. -/
def uTip : Unspent := { op := ⟨6, 0⟩, address := "a", value := 800, height := 100, fromCoinBase := false }

/-! The exclusion rules of the eligibility filter, exactly as the source
tests them, named for the precedence statements. -/

/-- The largest member count a group can hold without being over its
input-cap limit: the caller override, or the default thresholds of
overLimit (which treats exactly 499 legacy and 1460 segwit members as
already over). -/
def capSlack (maxInputs : Int) (sw : Bool) : Nat :=
  if 0 < maxInputs then maxInputs.toNat
  else if sw then MaxInputsPerTx - 1 else MaxInputsPerTxLegacy - 1

/-- Every per-address group satisfies its cap strictly, carries the segwit
flag of its address, and holds only outputs of its address. -/
def HaveOk (P : ScanParams) (l : List (String × AmountCount)) : Prop :=
  ∀ p ∈ l, p.2.overLimit P.maxInputs = false ∧
    p.2.isSegwit = P.isSegwitAddr p.1 ∧
    ∀ u ∈ p.2.credits, u.address = p.1

/-- The weak group invariant holding also at a winner break: at most one
member past the cap threshold. -/
def HaveOkW (P : ScanParams) (l : List (String × AmountCount)) : Prop :=
  ∀ p ∈ l, p.2.credits.length ≤ capSlack P.maxInputs p.2.isSegwit + 1 ∧
    p.2.isSegwit = P.isSegwitAddr p.1 ∧
    ∀ u ∈ p.2.credits, u.address = p.1

/-- The scan-state invariant away from a break point. -/
def ScanOkS (P : ScanParams) (st : ScanState) : Prop :=
  HaveOk P st.haveAmounts ∧
  ∀ w, st.winner = some w → ∃ ac, lookupHA st.haveAmounts w = some ac

/-- The scan-state invariant at the end of the scan (break included). -/
def ScanOk (P : ScanParams) (st : ScanState) : Prop :=
  HaveOkW P st.haveAmounts ∧
  ∀ w, st.winner = some w → ∃ ac, lookupHA st.haveAmounts w = some ac

/-- The fallback-pool invariant: never over the cap after an eviction loop,
and a true segwit flag certifies every member's address. -/
def PoolOk (P : ScanParams) (fb : FallbackState) : Prop :=
  fb.pool.overLimit P.maxInputs = false ∧
  (fb.pool.isSegwit = true → ∀ u ∈ fb.pool.credits, P.isSegwitAddr u.address = true)

/-- Rule 1: a mined output (nonnegative height) below the caller's minimum
height floor. -/
def ruleBelowFloor (P : ScanParams) (u : Unspent) : Prop :=
  0 ≤ u.height ∧ u.height < P.inputMinHeight

/-- Rule 2: a coinbase output that has not reached coinbase maturity. -/
def ruleImmatureCoinbase (P : ScanParams) (u : Unspent) : Prop :=
  u.fromCoinBase ∧ confirmed P.coinbaseMaturity u.height P.bsHeight = false

/-- Rule 2b: a mature coinbase output past the burn window. -/
def ruleBurnedCoinbase (P : ScanParams) (u : Unspent) : Prop :=
  u.fromCoinBase ∧ P.isBurned u (P.bsHeight + 1440) = true

/-- Rule 3: a zero-value output. -/
def ruleZeroValue (u : Unspent) : Prop := u.value = 0

/-- Rule 4: confirmations below a positive minconf requirement. -/
def ruleUnconfirmed (P : ScanParams) (u : Unspent) : Prop :=
  0 < P.minconf ∧ confirmed P.minconf u.height P.bsHeight = false

/-- Rule 5: the outpoint is reserved in the lock set. -/
def ruleLocked (P : ScanParams) (u : Unspent) : Prop := P.isLocked u.op = true

/-! Theorems. -/

/-- Claim C1: the claim (and the comment inside txToOutputs above the
dry-run branch) states that in unsigned-only mode the draft is returned
without mutating persistent state and that the storage transaction is
committed only in sign-and-broadcast mode.  Evaluating the model at a
dry-run request whose scan queued a zero-value output for deletion shows
the unsigned-mode branch commits the storage transaction and the backing
store loses a row. -/
theorem C1_unsigned_mode_commits_and_mutates_store :
    (txToOutputs Pbase none SendMode.unsigned [uZero, uA] ["a"] authorOk signOk).committed = true ∧
    (txToOutputs Pbase none SendMode.unsigned [uZero, uA] ["a"] authorOk signOk).storeAfter ≠
      [uZero, uA] := by
  constructor
  · rfl
  · decide

/-- Claim C3: the claim states that every selection group, including the
combined cross-address fallback pool, keeps its running value total equal
to the sum of its member values.  In the fallback combination the source
never adds the folded members to the pool total (it only subtracts on
eviction), so with two single-output addresses of 3000 and 2000 units the
pool holds members summing to 5000 while its running total is 0. -/
theorem C3_fallback_pool_running_total_mismatch :
    ∃ p, (findEligibleOutputsFull Pbase [uA, uB] ["a", "b"]).pool = some p ∧
      p.amount = 0 ∧ (p.credits.map (fun x => x.value)).sum = 5000 ∧
      p.amount ≠ (p.credits.map (fun x => x.value)).sum := by
  refine ⟨_, rfl, by decide, by decide, by decide⟩

set_option maxRecDepth 100000

/-- Claim C9 counterexample: on the Scenario B wallet (600 outputs of 1000
units on one address, non-segwit, sweeping, default comparator) the
selector short-circuits with a winner at the 499th visited output, so the
reported unused bookkeeping is 0/0, not the claimed 101 outputs and
101000 units. -/
theorem C9_counterexample_scenario_b :
    ¬((findEligibleOutputs PsweepDefault stream600 ["a"]).1.unusedCount = 101 ∧
      (findEligibleOutputs PsweepDefault stream600 ["a"]).1.unusedAmt = 101000) := by
  decide

/-- Claim C9 amended: on the Scenario B wallet the selector returns a
selected set of exactly 499 inputs, but because the sweep short-circuit
declares the capped group the winner and stops the scan before visiting
the remaining outputs, the unused bookkeeping reports 0 outputs and 0
units. -/
theorem C9_amended_scenario_b :
    (findEligibleOutputs PsweepDefault stream600 ["a"]).1.credits.length = 499 ∧
    (findEligibleOutputs PsweepDefault stream600 ["a"]).1.unusedCount = 0 ∧
    (findEligibleOutputs PsweepDefault stream600 ["a"]).1.unusedAmt = 0 := by
  refine ⟨by decide, by decide, by decide⟩

/-- Claim C2 counterexample: with the caller override maxInputs = 1, a
sweeping request with no custom comparator and two outputs on one address,
the sweep short-circuit declares the group the winner at the moment it
first exceeds the cap, so the final selected set holds 2 inputs, more than
the effective cap of 1. -/
theorem C2_counterexample_override_exceeded :
    PsweepOv.maxInputs = 1 ∧
    (findEligibleOutputs PsweepOv [uA, uA2] ["a"]).1.credits.length = 2 ∧
    ¬((findEligibleOutputs PsweepOv [uA, uA2] ["a"]).1.credits.length ≤ 1) := by
  refine ⟨rfl, by decide, by decide⟩

/-- Claim C5 counterexample: rule 1 as claimed (height below the minimum
height floor is skipped silently) fails for an unmined output, whose
sentinel height -1 is below any positive floor: the source only applies
the floor to outputs with nonnegative height, so with minconf = 0 the
unmined output is selected rather than skipped. -/
theorem C5_counterexample_unmined_below_floor_selected :
    uUnmined.height < Pfloor.inputMinHeight ∧
    (findEligibleOutputs Pfloor [uUnmined] ["a"]).1.credits = [uUnmined] := by
  refine ⟨by decide, by decide⟩

/-- Claim C7 counterexample: with a custom comparator and two addresses
whose groups are both sufficient on re-evaluation, the source overwrites
the winner variable on every sufficient group, so the last sufficient
group in iteration order wins, not the first: the first-seen sufficient
group holds uA, yet the selected set is uB. -/
theorem C7_counterexample_last_wins_not_first :
    Pcustom.isEnough.wellIsIt 1 false 3000 = true ∧
    (findEligibleOutputs Pcustom [uA, uB] ["a", "b"]).1.credits = [uB] ∧
    (findEligibleOutputs Pcustom [uA, uB] ["a", "b"]).1.credits ≠ [uA] := by
  refine ⟨by decide, by decide, by decide⟩

/-- Claim C8 counterexample: with the default comparator, a policy needing
two candidates and three single-output addresses, the cross-address
fallback folds groups in map-iteration order and stops as soon as the
pool is sufficient, so two runs over the identical snapshot whose map
ranges differ produce different selected sets. -/
theorem C8_counterexample_fallback_depends_on_map_order :
    (["a", "b", "c"] : List String).Perm ["c", "b", "a"] ∧
    (findEligibleOutputs Pcount2 [uA, uB, uC] ["a", "b", "c"]).1.credits ≠
      (findEligibleOutputs Pcount2 [uA, uB, uC] ["c", "b", "a"]).1.credits := by
  refine ⟨by decide, by decide⟩

/-! Helper lemmas about the scan bookkeeping. -/

theorem visitGroup_unconfirmed_eq (P : ScanParams) (st : ScanState) (u : Unspent) :
    (visitGroup P st u).1.unconfirmedCount = st.unconfirmedCount ∧
    (visitGroup P st u).1.unconfirmedAmt = st.unconfirmedAmt := by
  simp only [visitGroup]
  split_ifs <;> exact ⟨rfl, rfl⟩

theorem visit_unconfirmed_eq (P : ScanParams) (h : P.minconf ≤ 0) (st : ScanState)
    (u : Unspent) :
    (visit P st u).1.unconfirmedCount = st.unconfirmedCount ∧
    (visit P st u).1.unconfirmedAmt = st.unconfirmedAmt := by
  unfold visit
  split_ifs with h1 h2 h3 h4 h5 h6 h7 h8 <;>
    first
      | exact ⟨rfl, rfl⟩
      | exact visitGroup_unconfirmed_eq P st u
      | (exfalso; omega)

theorem runScan_unconfirmed_eq (P : ScanParams) (h : P.minconf ≤ 0) :
    ∀ (us : List Unspent) (st : ScanState),
      (runScan P us st).unconfirmedCount = st.unconfirmedCount ∧
      (runScan P us st).unconfirmedAmt = st.unconfirmedAmt := by
  intro us
  induction us with
  | nil => exact fun st => ⟨rfl, rfl⟩
  | cons u us ih =>
    intro st
    show (if (visit P st u).2 then (visit P st u).1
            else runScan P us (visit P st u).1).unconfirmedCount = st.unconfirmedCount ∧
         (if (visit P st u).2 then (visit P st u).1
            else runScan P us (visit P st u).1).unconfirmedAmt = st.unconfirmedAmt
    by_cases hb : (visit P st u).2 = true
    · simp only [hb, if_true]
      exact visit_unconfirmed_eq P h st u
    · simp only [hb, if_false, Bool.false_eq_true]
      obtain ⟨e1, e2⟩ := ih (visit P st u).1
      obtain ⟨f1, f2⟩ := visit_unconfirmed_eq P h st u
      exact ⟨e1.trans f1, e2.trans f2⟩

theorem findEligibleFull_unconfirmed_eq (P : ScanParams) (stream : List Unspent)
    (ord : List String) :
    (findEligibleOutputsFull P stream ord).out.unconfirmedCount =
      (runScan P stream initState).unconfirmedCount ∧
    (findEligibleOutputsFull P stream ord).out.unconfirmedAmt =
      (runScan P stream initState).unconfirmedAmt := by
  unfold findEligibleOutputsFull
  cases finalWinner P (scanFinal P stream)
      (orderedGroups (scanFinal P stream) ord) with
  | none => exact ⟨rfl, rfl⟩
  | some w => exact ⟨rfl, rfl⟩

/-- Claim C10: with minconf at most 0 the scan never classifies an output
as unconfirmed-excluded, so the unconfirmed bookkeeping is zero and
txToOutputs can never return the UnconfirmedCoins error. -/
theorem C10_minconf_nonpositive_no_unconfirmed (P : ScanParams)
    (addrs : Option (List String)) (mode : SendMode) (store : List Unspent)
    (ord : List String) (author : List Unspent → Except AuthorError AuthoredTx)
    (sv : AuthoredTx → Except Unit AuthoredTx) (h : P.minconf ≤ 0) :
    (findEligibleOutputs P store ord).1.unconfirmedCount = 0 ∧
    (findEligibleOutputs P store ord).1.unconfirmedAmt = 0 ∧
    ∀ (c : Nat) (a : Int),
      (txToOutputs P addrs mode store ord author sv).err ≠
        some (TxError.unconfirmedCoins c a) := by
  have hs := runScan_unconfirmed_eq P h store initState
  have hf := findEligibleFull_unconfirmed_eq P store ord
  have hc : (findEligibleOutputs P store ord).1.unconfirmedCount = 0 :=
    hf.1.trans hs.1
  have ha : (findEligibleOutputs P store ord).1.unconfirmedAmt = 0 :=
    hf.2.trans hs.2
  refine ⟨hc, ha, ?_⟩
  intro c a
  unfold txToOutputs
  cases hauth : author (findEligibleOutputs P store ord).1.credits with
  | error e =>
    cases e with
    | impossibleTx =>
      by_cases hu : 0 < (findEligibleOutputs P store ord).1.unusedCount
      · simp [classifyAuthorError, hu]
      · simp only [classifyAuthorError, hu, hc, if_false]
        split
        · omega
        · split <;> simp
    | otherError => simp [classifyAuthorError]
  | ok tx =>
    by_cases hm : mode = SendMode.unsigned
    · simp [hm]
    · cases hsv : sv tx with
      | error e0 => simp [hm, hsv]
      | ok tx1 =>
        by_cases hb : mode = SendMode.bcasted <;> simp [hm, hsv, hb]

/-- Claim C4: whenever the authoring collaborator reports the
impossible-transaction condition, txToOutputs returns no transaction, does
not commit, and returns exactly the error chosen by the precedence
TooManyInputs (positive cap-evicted count), else UnconfirmedCoins
(positive unconfirmed-excluded count), else InsufficientFunds,
distinguishing a restricted input-address set from no restriction. -/
theorem C4_impossible_classification (P : ScanParams) (addrs : Option (List String))
    (mode : SendMode) (store : List Unspent) (ord : List String)
    (author : List Unspent → Except AuthorError AuthoredTx)
    (sv : AuthoredTx → Except Unit AuthoredTx)
    (himp : author (findEligibleOutputs P store ord).1.credits =
      Except.error AuthorError.impossibleTx) :
    (txToOutputs P addrs mode store ord author sv).tx = none ∧
    (txToOutputs P addrs mode store ord author sv).committed = false ∧
    (0 < (findEligibleOutputs P store ord).1.unusedCount →
      (txToOutputs P addrs mode store ord author sv).err =
        some (TxError.tooManyInputs (findEligibleOutputs P store ord).1.unusedCount
          (findEligibleOutputs P store ord).1.unusedAmt)) ∧
    ((findEligibleOutputs P store ord).1.unusedCount = 0 →
      0 < (findEligibleOutputs P store ord).1.unconfirmedCount →
      (txToOutputs P addrs mode store ord author sv).err =
        some (TxError.unconfirmedCoins (findEligibleOutputs P store ord).1.unconfirmedCount
          (findEligibleOutputs P store ord).1.unconfirmedAmt)) ∧
    ((findEligibleOutputs P store ord).1.unusedCount = 0 →
      (findEligibleOutputs P store ord).1.unconfirmedCount = 0 →
      addrs.isSome = true →
      (txToOutputs P addrs mode store ord author sv).err =
        some TxError.insufficientFundsRestricted) ∧
    ((findEligibleOutputs P store ord).1.unusedCount = 0 →
      (findEligibleOutputs P store ord).1.unconfirmedCount = 0 →
      addrs = none →
      (txToOutputs P addrs mode store ord author sv).err =
        some TxError.insufficientFundsUnrestricted) := by
  have heq : txToOutputs P addrs mode store ord author sv =
      { tx := none,
        err := some (classifyAuthorError (findEligibleOutputs P store ord).1 addrs
          AuthorError.impossibleTx),
        committed := false, storeAfter := store } := by
    unfold txToOutputs
    rw [himp]
  rw [heq]
  refine ⟨rfl, rfl, ?_, ?_, ?_, ?_⟩
  · intro h1
    simp [classifyAuthorError, h1]
  · intro h1 h2
    simp [classifyAuthorError, h1, h2]
  · intro h1 h2 h3
    simp [classifyAuthorError, h1, h2, h3]
  · intro h1 h2 h3
    simp [classifyAuthorError, h1, h2, h3]

/-- Claim C4 witness at a concrete input: no bookkeeping exclusions and no
address restriction, so the unrestricted insufficient-funds error. -/
theorem C4_impossible_classification_witness :
    (txToOutputs Pbase none SendMode.unsigned [uA] ["a"] authorImpossible signOk).tx = none ∧
    (txToOutputs Pbase none SendMode.unsigned [uA] ["a"] authorImpossible signOk).err =
      some TxError.insufficientFundsUnrestricted :=
  ⟨(C4_impossible_classification Pbase none SendMode.unsigned [uA] ["a"]
      authorImpossible signOk rfl).1,
   (C4_impossible_classification Pbase none SendMode.unsigned [uA] ["a"]
      authorImpossible signOk rfl).2.2.2.2.2 (by decide) (by decide) rfl⟩

theorem visitGroup_outputsToDelete_eq (P : ScanParams) (st : ScanState) (u : Unspent) :
    (visitGroup P st u).1.outputsToDelete = st.outputsToDelete := by
  simp only [visitGroup]
  split_ifs <;> rfl

theorem visit_outputsToDelete_le (P : ScanParams) (st : ScanState) (u : Unspent)
    (h : st.outputsToDelete.length ≤ 1000000) :
    (visit P st u).1.outputsToDelete.length ≤ 1000000 := by
  unfold visit
  split_ifs with h1 h2 h3 h4 h5 h6 h7 h8 <;>
    first
      | exact h
      | (rw [visitGroup_outputsToDelete_eq]; exact h)
      | (simp only [List.length_append, List.length_cons, List.length_nil]; omega)

theorem runScan_outputsToDelete_le (P : ScanParams) :
    ∀ (us : List Unspent) (st : ScanState),
      st.outputsToDelete.length ≤ 1000000 →
      (runScan P us st).outputsToDelete.length ≤ 1000000 := by
  intro us
  induction us with
  | nil => exact fun st h => h
  | cons u us ih =>
    intro st h
    show (if (visit P st u).2 then (visit P st u).1
            else runScan P us (visit P st u).1).outputsToDelete.length ≤ 1000000
    by_cases hb : (visit P st u).2 = true
    · simp only [hb, if_true]
      exact visit_outputsToDelete_le P st u h
    · simp only [hb, if_false, Bool.false_eq_true]
      exact ih (visit P st u).1 (visit_outputsToDelete_le P st u h)

/-- Claim C5 amended: the eligibility filter applies the exclusion rules in
the claimed precedence, except that rule 1 only covers mined outputs
(nonnegative height); an output failing an earlier rule leaves the state
exactly as the rule prescribes and never reaches a later rule, and the
deletion queue never exceeds 1,000,000 identifiers in a call. -/
theorem C5_amended_filter_precedence (P : ScanParams) (st : ScanState) (u : Unspent)
    (us : List Unspent) :
    (ruleBelowFloor P u → visit P st u = (st, false)) ∧
    (¬ruleBelowFloor P u → ruleImmatureCoinbase P u → visit P st u = (st, false)) ∧
    (¬ruleBelowFloor P u → ¬ruleImmatureCoinbase P u → ruleBurnedCoinbase P u →
      visit P st u =
        (if st.outputsToDelete.length < 1000000 then
          { st with outputsToDelete := st.outputsToDelete ++ [u.op],
                    burnedOutputCount := st.burnedOutputCount + 1 }
         else st, false)) ∧
    (¬ruleBelowFloor P u → ¬ruleImmatureCoinbase P u → ¬ruleBurnedCoinbase P u →
      ruleZeroValue u →
      visit P st u =
        (if st.outputsToDelete.length < 1000000 then
          { st with outputsToDelete := st.outputsToDelete ++ [u.op] }
         else st, false)) ∧
    (¬ruleBelowFloor P u → ¬ruleImmatureCoinbase P u → ¬ruleBurnedCoinbase P u →
      ¬ruleZeroValue u → ruleUnconfirmed P u →
      visit P st u =
        ({ st with unconfirmedCount := st.unconfirmedCount + 1,
                   unconfirmedAmt := st.unconfirmedAmt + u.value }, false)) ∧
    (¬ruleBelowFloor P u → ¬ruleImmatureCoinbase P u → ¬ruleBurnedCoinbase P u →
      ¬ruleZeroValue u → ¬ruleUnconfirmed P u → ruleLocked P u →
      visit P st u = (st, false)) ∧
    ((runScan P us initState).outputsToDelete.length ≤ 1000000) := by
  unfold ruleBelowFloor ruleImmatureCoinbase ruleBurnedCoinbase ruleZeroValue
    ruleUnconfirmed ruleLocked
  refine ⟨?_, ?_, ?_, ?_, ?_, ?_, ?_⟩
  · intro h1
    unfold visit
    rw [if_pos h1]
  · intro h1 h2
    unfold visit
    rw [if_neg h1, if_pos h2]
  · intro h1 h2 h3
    unfold visit
    rw [if_neg h1, if_neg h2, if_pos h3]
  · intro h1 h2 h3 h4
    unfold visit
    rw [if_neg h1, if_neg h2, if_neg h3, if_pos h4]
  · intro h1 h2 h3 h4 h5
    unfold visit
    rw [if_neg h1, if_neg h2, if_neg h3, if_neg h4, if_pos h5]
  · intro h1 h2 h3 h4 h5 h6
    unfold visit
    rw [if_neg h1, if_neg h2, if_neg h3, if_neg h4, if_neg h5, if_pos h6]
  · exact runScan_outputsToDelete_le P us initState (by simp [initState])

/-- Claim C5 witness at a concrete input: one confirmation against a
minconf 2 requirement lands in the unconfirmed bookkeeping. -/
theorem C5_amended_filter_precedence_witness :
    visit Pminconf2 initState uTip =
      ({ initState with unconfirmedCount := 1, unconfirmedAmt := 800 }, false) :=
  (C5_amended_filter_precedence Pminconf2 initState uTip []).2.2.2.2.1
    (by unfold ruleBelowFloor; decide) (by unfold ruleImmatureCoinbase; decide)
    (by unfold ruleBurnedCoinbase; decide) (by unfold ruleZeroValue; decide)
    (by unfold ruleUnconfirmed; decide)

theorem lookupHA_updateHA_self (l : List (String × AmountCount)) (k : String)
    (v : AmountCount) : lookupHA (updateHA l k v) k = some v := by
  induction l with
  | nil => simp [updateHA, lookupHA]
  | cons p t ih =>
    by_cases hk : p.1 = k
    · simp [updateHA, hk, lookupHA]
    · simp only [updateHA, hk, if_false]
      simpa [lookupHA, hk] using ih

/-- Claim C6: when an insertion makes its group satisfy IsEnough, the group
sheds exactly its worst-ranked member when IsEnough would still hold
without it, booking that member's value and count as unused; and with no
custom comparator the group is declared the winner and the scan breaks
immediately. -/
theorem C6_enough_sheds_worst_and_wins (P : ScanParams) (st : ScanState) (u : Unspent)
    (h1 : ¬ruleBelowFloor P u) (h2 : ¬ruleImmatureCoinbase P u)
    (h3 : ¬ruleBurnedCoinbase P u) (h4 : ¬ruleZeroValue u)
    (h5 : ¬ruleUnconfirmed P u) (h6 : ¬ruleLocked P u)
    (hEnough : P.isEnough.wellIsIt (afterPut P st u).credits.length
      (afterPut P st u).isSegwit (afterPut P st u).amount = true) :
    (P.inputComparator.isNone = true →
      (visit P st u).2 = true ∧
      (visit P st u).1.winner = some u.address ∧
      (dropDecision P (afterPut P st u) (worstOf (afterPut P st u) u) = true →
        lookupHA (visit P st u).1.haveAmounts u.address =
          some (dropWorst P.cmp (afterPut P st u) (worstOf (afterPut P st u) u)) ∧
        (visit P st u).1.unusedCount = st.unusedCount + 1 ∧
        (visit P st u).1.unusedAmt = st.unusedAmt + (worstOf (afterPut P st u) u).value) ∧
      (dropDecision P (afterPut P st u) (worstOf (afterPut P st u) u) = false →
        lookupHA (visit P st u).1.haveAmounts u.address = some (afterPut P st u) ∧
        (visit P st u).1.unusedCount = st.unusedCount ∧
        (visit P st u).1.unusedAmt = st.unusedAmt)) ∧
    (P.inputComparator.isSome = true →
      dropDecision P (afterPut P st u) (worstOf (afterPut P st u) u) = true →
      AmountCount.overLimit
          (dropWorst P.cmp (afterPut P st u) (worstOf (afterPut P st u) u))
          P.maxInputs = false →
      (visit P st u).2 = false ∧
      lookupHA (visit P st u).1.haveAmounts u.address =
        some (dropWorst P.cmp (afterPut P st u) (worstOf (afterPut P st u) u)) ∧
      (visit P st u).1.unusedCount = st.unusedCount + 1 ∧
      (visit P st u).1.unusedAmt = st.unusedAmt + (worstOf (afterPut P st u) u).value) := by
  rw [ruleBelowFloor] at h1
  rw [ruleImmatureCoinbase] at h2
  rw [ruleBurnedCoinbase] at h3
  rw [ruleZeroValue] at h4
  rw [ruleUnconfirmed] at h5
  rw [ruleLocked] at h6
  have hv : visit P st u = visitGroup P st u := by
    unfold visit
    rw [if_neg h1, if_neg h2, if_neg h3, if_neg h4, if_neg h5, if_neg h6]
  constructor
  · intro hNone
    refine ⟨?_, ?_, ?_, ?_⟩
    · simp [hv, visitGroup, hEnough, hNone]
    · simp [hv, visitGroup, hEnough, hNone]
    · intro hd
      refine ⟨?_, ?_, ?_⟩ <;>
        simp [hv, visitGroup, hEnough, hNone, hd, lookupHA_updateHA_self]
    · intro hd
      refine ⟨?_, ?_, ?_⟩ <;>
        simp [hv, visitGroup, hEnough, hNone, hd, lookupHA_updateHA_self]
  · intro hSome hd hNotOver
    have hNone : P.inputComparator.isNone = false := by
      cases hcmp : P.inputComparator with
      | none => rw [hcmp] at hSome; simp at hSome
      | some c => simp [hcmp]
    refine ⟨?_, ?_, ?_, ?_⟩ <;>
      simp [hv, visitGroup, hEnough, hNone, hd, hNotOver, lookupHA_updateHA_self]

/-- Claim C6 witness at a concrete input: the first candidate suffices, no
worst-drop is possible, the group wins and the scan breaks. -/
theorem C6_enough_sheds_worst_and_wins_witness :
    (visit Pwin1 initState uA).2 = true ∧
    (visit Pwin1 initState uA).1.winner = some "a" :=
  ⟨((C6_enough_sheds_worst_and_wins Pwin1 initState uA
      (by unfold ruleBelowFloor; decide) (by unfold ruleImmatureCoinbase; decide)
      (by unfold ruleBurnedCoinbase; decide) (by unfold ruleZeroValue; decide)
      (by unfold ruleUnconfirmed; decide) (by unfold ruleLocked; decide)
      (by decide)).1 (by decide)).1,
   ((C6_enough_sheds_worst_and_wins Pwin1 initState uA
      (by unfold ruleBelowFloor; decide) (by unfold ruleImmatureCoinbase; decide)
      (by unfold ruleBurnedCoinbase; decide) (by unfold ruleZeroValue; decide)
      (by unfold ruleUnconfirmed; decide) (by unfold ruleLocked; decide)
      (by decide)).1 (by decide)).2.1⟩

theorem visitGroup_winner_eq (P : ScanParams) (st : ScanState) (u : Unspent)
    (hSome : P.inputComparator.isSome = true) :
    (visitGroup P st u).1.winner = st.winner := by
  have hN : P.inputComparator.isNone = false := by
    cases hcmp : P.inputComparator with
    | none => rw [hcmp] at hSome; simp at hSome
    | some c => simp [hcmp]
  simp only [visitGroup, hN, Bool.and_false, if_false, Bool.false_eq_true]
  split_ifs <;> rfl

theorem visit_winner_eq (P : ScanParams) (st : ScanState) (u : Unspent)
    (hSome : P.inputComparator.isSome = true) :
    (visit P st u).1.winner = st.winner := by
  unfold visit
  split_ifs <;> first
    | rfl
    | exact visitGroup_winner_eq P st u hSome

theorem runScan_winner_eq (P : ScanParams) (hSome : P.inputComparator.isSome = true) :
    ∀ (us : List Unspent) (st : ScanState), (runScan P us st).winner = st.winner := by
  intro us
  induction us with
  | nil => exact fun st => rfl
  | cons u us ih =>
    intro st
    show (if (visit P st u).2 then (visit P st u).1
            else runScan P us (visit P st u).1).winner = st.winner
    by_cases hb : (visit P st u).2 = true
    · simp only [hb, if_true]
      exact visit_winner_eq P st u hSome
    · simp only [hb, if_false, Bool.false_eq_true]
      exact (ih (visit P st u).1).trans (visit_winner_eq P st u hSome)

theorem rescanWinner_keeps_of_none (P : ScanParams)
    (gs : List (String × AmountCount)) (w0 : Option String)
    (h : ∀ p ∈ gs, P.isEnough.wellIsIt p.2.credits.length p.2.isSegwit p.2.amount = false) :
    rescanWinner P gs w0 = w0 := by
  induction gs generalizing w0 with
  | nil => rfl
  | cons p t ih =>
    have hp := h p (by simp)
    show rescanWinner P t (if P.isEnough.wellIsIt p.2.credits.length p.2.isSegwit
      p.2.amount then some p.1 else w0) = w0
    rw [hp]
    simp only [Bool.false_eq_true, if_false]
    exact ih w0 (fun q hq => h q (List.mem_cons_of_mem p hq))

theorem rescanWinner_last_sufficient (P : ScanParams)
    (gs1 gs2 : List (String × AmountCount)) (w : String) (ac : AmountCount)
    (w0 : Option String)
    (hsuff : P.isEnough.wellIsIt ac.credits.length ac.isSegwit ac.amount = true)
    (hafter : ∀ p ∈ gs2,
      P.isEnough.wellIsIt p.2.credits.length p.2.isSegwit p.2.amount = false) :
    rescanWinner P (gs1 ++ (w, ac) :: gs2) w0 = some w := by
  unfold rescanWinner
  rw [List.foldl_append]
  show rescanWinner P ((w, ac) :: gs2) _ = some w
  show rescanWinner P gs2 (if P.isEnough.wellIsIt ac.credits.length ac.isSegwit
    ac.amount then some w else _) = some w
  rw [hsuff, if_pos rfl]
  exact rescanWinner_keeps_of_none P gs2 (some w) hafter

theorem orderedGroups_lookup (st : ScanState) (ord : List String)
    (p : String × AmountCount) (hp : p ∈ orderedGroups st ord) :
    lookupHA st.haveAmounts p.1 = some p.2 := by
  unfold orderedGroups at hp
  rw [List.mem_filterMap] at hp
  obtain ⟨a, -, ha⟩ := hp
  cases hl : lookupHA st.haveAmounts a with
  | none => rw [hl] at ha; simp at ha
  | some ac =>
    rw [hl] at ha
    have hpe : p = (a, ac) := by
      have h2 : some (a, ac) = some p := ha
      exact (Option.some.inj h2).symm
    rw [hpe]
    exact hl

/-- Claim C7 amended: with a custom comparator the post-scan re-evaluation
makes the last (not the first) sufficient group in map-iteration order the
winner; every other group's member count and total are folded into the
unused bookkeeping and the winner's members become the final selected
set. -/
theorem C7_amended_last_sufficient_group_wins (P : ScanParams) (stream : List Unspent)
    (ord : List String) (gs1 gs2 : List (String × AmountCount)) (w : String)
    (ac : AmountCount)
    (hSome : P.inputComparator.isSome = true)
    (hsplit : orderedGroups (scanFinal P stream) ord = gs1 ++ (w, ac) :: gs2)
    (hsuff : P.isEnough.wellIsIt ac.credits.length ac.isSegwit ac.amount = true)
    (hafter : ∀ p ∈ gs2,
      P.isEnough.wellIsIt p.2.credits.length p.2.isSegwit p.2.amount = false) :
    (findEligibleOutputsFull P stream ord).winner = some w ∧
    (findEligibleOutputs P stream ord).1.credits = ac.credits ∧
    (findEligibleOutputs P stream ord).1.unusedCount =
      (scanFinal P stream).unusedCount +
        (((orderedGroups (scanFinal P stream) ord).filter (fun p => p.1 ≠ w)).map
          (fun p => p.2.credits.length)).sum ∧
    (findEligibleOutputs P stream ord).1.unusedAmt =
      (scanFinal P stream).unusedAmt +
        (((orderedGroups (scanFinal P stream) ord).filter (fun p => p.1 ≠ w)).map
          (fun p => p.2.amount)).sum := by
  have hwin0 : (scanFinal P stream).winner = none :=
    runScan_winner_eq P hSome stream initState
  have hfw : finalWinner P (scanFinal P stream)
      (orderedGroups (scanFinal P stream) ord) = some w := by
    unfold finalWinner
    rw [hSome, if_pos rfl, hwin0, hsplit]
    exact rescanWinner_last_sufficient P gs1 gs2 w ac none hsuff hafter
  have hlk : lookupHA (scanFinal P stream).haveAmounts w = some ac :=
    orderedGroups_lookup (scanFinal P stream) ord (w, ac)
      (by rw [hsplit]; exact List.mem_append_right _ (by simp))
  refine ⟨?_, ?_, ?_, ?_⟩ <;>
    simp [findEligibleOutputs, findEligibleOutputsFull, hfw, winnerEO, hlk]

/-- Claim C7 witness at a concrete input: two sufficient single-output
groups, the later one in map order wins. -/
theorem C7_amended_last_sufficient_group_wins_witness :
    (findEligibleOutputsFull Pcustom [uA, uB] ["a", "b"]).winner = some "b" ∧
    (findEligibleOutputs Pcustom [uA, uB] ["a", "b"]).1.credits =
      ({ amount := 2000, isSegwit := false, credits := [uB] } : AmountCount).credits :=
  ⟨(C7_amended_last_sufficient_group_wins Pcustom [uA, uB] ["a", "b"]
      [("a", { amount := 3000, isSegwit := false, credits := [uA] })] [] "b"
      { amount := 2000, isSegwit := false, credits := [uB] }
      (by decide) (by decide) (by decide) (by decide)).1,
   (C7_amended_last_sufficient_group_wins Pcustom [uA, uB] ["a", "b"]
      [("a", { amount := 3000, isSegwit := false, credits := [uA] })] [] "b"
      { amount := 2000, isSegwit := false, credits := [uB] }
      (by decide) (by decide) (by decide) (by decide)).2.1⟩

/-- Claim C8 amended: selection is deterministic for a fixed snapshot and a
fixed map-iteration order, and on the single-address winner path it is
independent of the map-iteration order altogether: with the default
comparator, once the scan produced a winner, any two iteration orders that
are permutations of one another yield identical results.  (The fallback
path genuinely depends on the order, as the counterexample shows and as
the spec itself flags for the fold of the combined pool.) -/
theorem C8_amended_winner_path_order_independent (P : ScanParams)
    (stream : List Unspent) (ord1 ord2 : List String) (hperm : ord1.Perm ord2)
    (hNone : P.inputComparator.isNone = true)
    (hw : (scanFinal P stream).winner.isSome = true) :
    findEligibleOutputs P stream ord1 = findEligibleOutputs P stream ord2 := by
  have hso : P.inputComparator.isSome = false := by
    cases hcmp : P.inputComparator with
    | none => simp [hcmp]
    | some c => rw [hcmp] at hNone; simp at hNone
  obtain ⟨w, hww⟩ := Option.isSome_iff_exists.mp hw
  have hfw1 : finalWinner P (scanFinal P stream)
      (orderedGroups (scanFinal P stream) ord1) = some w := by
    unfold finalWinner
    rw [hso]
    simpa using hww
  have hfw2 : finalWinner P (scanFinal P stream)
      (orderedGroups (scanFinal P stream) ord2) = some w := by
    unfold finalWinner
    rw [hso]
    simpa using hww
  have hg : (orderedGroups (scanFinal P stream) ord1).Perm
      (orderedGroups (scanFinal P stream) ord2) :=
    hperm.filterMap _
  have hcnt : (((orderedGroups (scanFinal P stream) ord1).filter
        (fun p => p.1 ≠ w)).map (fun p => p.2.credits.length)).sum =
      (((orderedGroups (scanFinal P stream) ord2).filter
        (fun p => p.1 ≠ w)).map (fun p => p.2.credits.length)).sum :=
    ((hg.filter _).map _).sum_eq
  have hamt : (((orderedGroups (scanFinal P stream) ord1).filter
        (fun p => p.1 ≠ w)).map (fun p => p.2.amount)).sum =
      (((orderedGroups (scanFinal P stream) ord2).filter
        (fun p => p.1 ≠ w)).map (fun p => p.2.amount)).sum :=
    ((hg.filter _).map _).sum_eq
  unfold findEligibleOutputs
  simp only [findEligibleOutputsFull, hfw1, hfw2, winnerEO, hcnt, hamt]

/-- Claim C8 witness at a concrete input: two distinct map orders over a
two-address wallet whose scan short-circuits with a winner produce the
identical result. -/
theorem C8_amended_winner_path_order_independent_witness :
    (["a", "b"] : List String).Perm ["b", "a"] ∧
    findEligibleOutputs Pcount2 [uA, uB, uA2] ["a", "b"] =
      findEligibleOutputs Pcount2 [uA, uB, uA2] ["b", "a"] :=
  ⟨by decide,
   C8_amended_winner_path_order_independent Pcount2 [uA, uB, uA2] ["a", "b"]
     ["b", "a"] (by decide) (by decide) (by decide)⟩

/-- Claim C10 witness at a concrete input. -/
theorem C10_minconf_nonpositive_no_unconfirmed_witness :
    (findEligibleOutputs Pfloor [uUnmined] ["a"]).1.unconfirmedCount = 0 ∧
    (txToOutputs Pfloor none SendMode.unsigned [uUnmined] ["a"]
        authorImpossible signOk).err ≠ some (TxError.unconfirmedCoins 1 700) :=
  ⟨(C10_minconf_nonpositive_no_unconfirmed Pfloor none SendMode.unsigned [uUnmined]
      ["a"] authorImpossible signOk (by decide)).1,
   (C10_minconf_nonpositive_no_unconfirmed Pfloor none SendMode.unsigned [uUnmined]
      ["a"] authorImpossible signOk (by decide)).2.2 1 700⟩

/-! Lemmas for the input-cap invariant. -/

theorem treePut_length_le (cmp : Cmp) (k : Unspent) :
    ∀ l : List Unspent, (treePut cmp k l).length ≤ l.length + 1 := by
  intro l
  induction l with
  | nil => simp [treePut]
  | cons x xs ih =>
    unfold treePut
    split_ifs <;> simp_all

theorem treeRemove_length_le (cmp : Cmp) (k : Unspent) :
    ∀ l : List Unspent, (treeRemove cmp k l).length ≤ l.length := by
  intro l
  induction l with
  | nil => simp [treeRemove]
  | cons x xs ih =>
    unfold treeRemove
    split_ifs <;> simp_all

theorem treeRemove_length_of_found (cmp : Cmp) (k : Unspent) :
    ∀ l : List Unspent, (∃ x ∈ l, cmp k x = 0) →
      (treeRemove cmp k l).length + 1 = l.length := by
  intro l
  induction l with
  | nil => intro h; simp at h
  | cons x xs ih =>
    intro h
    unfold treeRemove
    by_cases hx : cmp k x = 0
    · rw [if_pos hx]
      simp
    · rw [if_neg hx]
      obtain ⟨y, hy, hcy⟩ := h
      rcases List.mem_cons.mp hy with rfl | hmem
      · exact absurd hcy hx
      · simp only [List.length_cons]
        rw [← ih ⟨y, hmem, hcy⟩]

theorem mem_treePut (cmp : Cmp) (k : Unspent) :
    ∀ (l : List Unspent) (x : Unspent), x ∈ treePut cmp k l → x = k ∨ x ∈ l := by
  intro l
  induction l with
  | nil => intro x hx; simp [treePut] at hx; exact Or.inl hx
  | cons y ys ih =>
    intro x hx
    unfold treePut at hx
    split_ifs at hx with h1 h2
    · rcases List.mem_cons.mp hx with rfl | h
      · exact Or.inl rfl
      · exact Or.inr h
    · exact Or.inr hx
    · rcases List.mem_cons.mp hx with rfl | h
      · exact Or.inr (by simp)
      · rcases ih x h with h | h
        · exact Or.inl h
        · exact Or.inr (by simp [h])

theorem mem_treeRemove (cmp : Cmp) (k : Unspent) :
    ∀ (l : List Unspent) (x : Unspent), x ∈ treeRemove cmp k l → x ∈ l := by
  intro l
  induction l with
  | nil => intro x hx; simp [treeRemove] at hx
  | cons y ys ih =>
    intro x hx
    unfold treeRemove at hx
    split_ifs at hx with h1
    · exact List.mem_cons_of_mem y hx
    · rcases List.mem_cons.mp hx with rfl | h
      · simp
      · exact List.mem_cons_of_mem y (ih x h)

theorem treeRight_mem (l : List Unspent) (x : Unspent) (h : treeRight l = some x) :
    x ∈ l := by
  unfold treeRight at h
  exact List.mem_of_mem_getLast? (by simp [h])

theorem cmpNat_refl (a : Nat) : cmpNat a a = 0 := by
  simp [cmpNat]

theorem NilComparator_refl (a : Unspent) : NilComparator a a = 0 := by
  simp [NilComparator, cmpNat_refl]

theorem PreferBiggest_refl (a : Unspent) : PreferBiggest a a = 0 := by
  simp [PreferBiggest, NilComparator_refl]

theorem PreferOldest_refl (a : Unspent) : PreferOldest a a = 0 := by
  simp [PreferOldest, NilComparator_refl]

theorem overLimit_false_iff (a : AmountCount) (m : Int) :
    a.overLimit m = false ↔ a.credits.length ≤ capSlack m a.isSegwit := by
  unfold AmountCount.overLimit capSlack MaxInputsPerTx MaxInputsPerTxLegacy
  by_cases hm : 0 < m
  · simp only [hm, if_true, decide_eq_false_iff_not, not_lt]
    omega
  · simp only [hm, if_false]
    by_cases hs : a.isSegwit = true
    · simp only [hs, if_true, Bool.true_and]
      split_ifs with h1 h2 <;> simp_all <;> omega
    · simp only [Bool.not_eq_true] at hs
      simp only [hs, if_false, Bool.false_and, Bool.false_eq_true]
      split_ifs with h1 <;> simp_all <;> omega

theorem lookupHA_mem (l : List (String × AmountCount)) (a : String)
    (v : AmountCount) (h : lookupHA l a = some v) : (a, v) ∈ l := by
  induction l with
  | nil => simp [lookupHA] at h
  | cons p t ih =>
    unfold lookupHA at h
    split_ifs at h with hk
    · cases h
      rcases p with ⟨k0, v0⟩
      cases hk
      simp
    · exact List.mem_cons_of_mem p (ih h)

theorem mem_updateHA (l : List (String × AmountCount)) (k : String)
    (v : AmountCount) (p : String × AmountCount) (h : p ∈ updateHA l k v) :
    p = (k, v) ∨ p ∈ l := by
  induction l with
  | nil => simp [updateHA] at h; exact Or.inl h
  | cons q t ih =>
    unfold updateHA at h
    split_ifs at h with hk
    · rcases List.mem_cons.mp h with rfl | h
      · exact Or.inl rfl
      · exact Or.inr (List.mem_cons_of_mem q h)
    · rcases List.mem_cons.mp h with rfl | h
      · exact Or.inr (by simp)
      · rcases ih h with h | h
        · exact Or.inl h
        · exact Or.inr (List.mem_cons_of_mem q h)

theorem capSlack_pos_eq (m : Int) (sw : Bool) (hm : 0 < m) :
    capSlack m sw = m.toNat := by
  simp [capSlack, hm]

theorem capSlack_le_default (m : Int) (sw : Bool) (hm : m ≤ 0) :
    capSlack m sw ≤ MaxInputsPerTx - 1 := by
  have : ¬0 < m := by omega
  unfold capSlack MaxInputsPerTx MaxInputsPerTxLegacy
  simp only [this, if_false]
  split_ifs <;> omega

theorem capSlack_legacy (m : Int) (hm : m ≤ 0) :
    capSlack m false = MaxInputsPerTxLegacy - 1 := by
  have : ¬0 < m := by omega
  simp [capSlack, this]

/-- The group for the incoming output satisfies the strict bound before the
insertion, carries the segwit flag of the address, and holds only outputs
of that address. -/
theorem groupOf_props (P : ScanParams) (st : ScanState) (u : Unspent)
    (hInv : HaveOk P st.haveAmounts) :
    (groupOf P st u).credits.length ≤ capSlack P.maxInputs (groupOf P st u).isSegwit ∧
    (groupOf P st u).isSegwit = P.isSegwitAddr u.address ∧
    ∀ x ∈ (groupOf P st u).credits, x.address = u.address := by
  unfold groupOf
  cases hl : lookupHA st.haveAmounts u.address with
  | none => simp
  | some ha =>
    have hmem := lookupHA_mem st.haveAmounts u.address ha hl
    obtain ⟨h1, h2, h3⟩ := hInv (u.address, ha) hmem
    exact ⟨(overLimit_false_iff ha P.maxInputs).mp h1, h2, h3⟩

/-- The group right after the insertion: one longer at most, same flag,
members from the address. -/
theorem afterPut_props (P : ScanParams) (st : ScanState) (u : Unspent)
    (hInv : HaveOk P st.haveAmounts) :
    (afterPut P st u).credits.length ≤
      capSlack P.maxInputs (afterPut P st u).isSegwit + 1 ∧
    (afterPut P st u).isSegwit = P.isSegwitAddr u.address ∧
    ∀ x ∈ (afterPut P st u).credits, x.address = u.address := by
  obtain ⟨h1, h2, h3⟩ := groupOf_props P st u hInv
  refine ⟨?_, h2, ?_⟩
  · have hle := treePut_length_le P.cmp u (groupOf P st u).credits
    have hsw : (afterPut P st u).isSegwit = (groupOf P st u).isSegwit := rfl
    have : (afterPut P st u).credits.length =
        (treePut P.cmp u (groupOf P st u).credits).length := rfl
    rw [this, hsw]
    omega
  · intro x hx
    rcases mem_treePut P.cmp u (groupOf P st u).credits x hx with rfl | hx
    · rfl
    · exact h3 x hx

/-- The post-insertion group with an optional worst-drop applied: the drop
only shrinks the credits and keeps the flag. -/
theorem dropWorst_le (cmp : Cmp) (ha : AmountCount) (w : Unspent) :
    (dropWorst cmp ha w).credits.length ≤ ha.credits.length ∧
    (dropWorst cmp ha w).isSegwit = ha.isSegwit ∧
    ∀ x ∈ (dropWorst cmp ha w).credits, x ∈ ha.credits :=
  ⟨treeRemove_length_le cmp w ha.credits, rfl,
   fun x hx => mem_treeRemove cmp w ha.credits x hx⟩

/-- Removing the tree maximum from a nonempty group with a reflexive
comparator removes exactly one member. -/
theorem dropWorst_exact (cmp : Cmp) (ha : AmountCount) (u : Unspent)
    (hrefl : ∀ a, cmp a a = 0) (hne : ha.credits ≠ []) :
    (dropWorst cmp ha (worstOf ha u)).credits.length + 1 = ha.credits.length := by
  have hmem : worstOf ha u ∈ ha.credits := by
    unfold worstOf treeRight
    cases hg : ha.credits.getLast? with
    | none => exact absurd (List.getLast?_eq_none_iff.mp hg) hne
    | some x =>
      simp only [Option.getD_some]
      exact List.mem_of_mem_getLast? (by simp [hg])
  exact treeRemove_length_of_found cmp (worstOf ha u) ha.credits
    ⟨worstOf ha u, hmem, hrefl _⟩

theorem lookupHA_updateHA_ne (l : List (String × AmountCount)) (k a : String)
    (v : AmountCount) (h : a ≠ k) :
    lookupHA (updateHA l k v) a = lookupHA l a := by
  induction l with
  | nil =>
    show (if k = a then some v else none) = none
    rw [if_neg (fun hk => h hk.symm)]
  | cons p t ih =>
    rcases p with ⟨k0, v0⟩
    by_cases hk : k0 = k
    · subst hk
      simp only [updateHA, if_pos rfl]
      show (if k0 = a then some v else lookupHA t a) =
        (if k0 = a then some v0 else lookupHA t a)
      rw [if_neg (fun hk => h hk.symm), if_neg (fun hk => h hk.symm)]
    · simp only [updateHA, hk, if_false]
      show (if k0 = a then some v0 else lookupHA (updateHA t k v) a) =
        (if k0 = a then some v0 else lookupHA t a)
      split_ifs with hk0
      · rfl
      · exact ih

theorem updateHA_HaveOk (P : ScanParams) (l : List (String × AmountCount))
    (hInv : HaveOk P l) (a : String) (ha : AmountCount)
    (hover : ha.overLimit P.maxInputs = false)
    (hflag : ha.isSegwit = P.isSegwitAddr a)
    (haddr : ∀ x ∈ ha.credits, x.address = a) :
    HaveOk P (updateHA l a ha) := by
  intro p hp
  rcases mem_updateHA l a ha p hp with rfl | hp
  · exact ⟨hover, hflag, haddr⟩
  · exact hInv p hp

theorem updateHA_HaveOkW (P : ScanParams) (l : List (String × AmountCount))
    (hInv : HaveOk P l) (a : String) (ha : AmountCount)
    (hlen : ha.credits.length ≤ capSlack P.maxInputs ha.isSegwit + 1)
    (hflag : ha.isSegwit = P.isSegwitAddr a)
    (haddr : ∀ x ∈ ha.credits, x.address = a) :
    HaveOkW P (updateHA l a ha) := by
  intro p hp
  rcases mem_updateHA l a ha p hp with rfl | hp
  · exact ⟨hlen, hflag, haddr⟩
  · obtain ⟨h1, h2, h3⟩ := hInv p hp
    exact ⟨Nat.le_succ_of_le ((overLimit_false_iff _ _).mp h1), h2, h3⟩

theorem HaveOk_toW (P : ScanParams) (l : List (String × AmountCount))
    (hInv : HaveOk P l) : HaveOkW P l := by
  intro p hp
  obtain ⟨h1, h2, h3⟩ := hInv p hp
  exact ⟨Nat.le_succ_of_le ((overLimit_false_iff _ _).mp h1), h2, h3⟩

/-- The group phase preserves the scan invariant: a non-breaking visit
keeps every group strictly within its cap, and a breaking visit leaves
every group at most one past it with the winner present in the map. -/
theorem visitGroup_preserves (P : ScanParams) (st : ScanState) (u : Unspent)
    (hrefl : ∀ a, P.cmp a a = 0) (hInv : ScanOkS P st) :
    ((visitGroup P st u).2 = false → ScanOkS P (visitGroup P st u).1) ∧
    ScanOk P (visitGroup P st u).1 := by
  obtain ⟨hap1, hap2, hap3⟩ := afterPut_props P st u hInv.1
  have hd2 := dropWorst_le P.cmp (afterPut P st u) (worstOf (afterPut P st u) u)
  simp only [visitGroup]
  set ha1 := afterPut P st u with hha1
  set w1 := worstOf ha1 u with hw1
  set d1 := dropDecision P ha1 w1 with hd1
  set ha2 := (if d1 = true then dropWorst P.cmp ha1 w1 else ha1) with hha2
  have hflag2 : ha2.isSegwit = P.isSegwitAddr u.address := by
    rw [hha2]
    split_ifs with hd
    · exact hd2.2.1.trans hap2
    · exact hap2
  have hlen2 : ha2.credits.length ≤ capSlack P.maxInputs ha2.isSegwit + 1 := by
    rw [hha2]
    split_ifs with hd
    · have h1 := hd2.1
      have h2 : (dropWorst P.cmp ha1 w1).isSegwit = ha1.isSegwit := hd2.2.1
      rw [h2]
      omega
    · exact hap1
  have haddr2 : ∀ x ∈ ha2.credits, x.address = u.address := by
    rw [hha2]
    split_ifs with hd
    · exact fun x hx => hap3 x (hd2.2.2 x hx)
    · exact hap3
  have hwinner : ∀ (ha : AmountCount), ∀ w, st.winner = some w →
      ∃ ac, lookupHA (updateHA st.haveAmounts u.address ha) w = some ac := by
    intro ha w hw
    by_cases hwa : w = u.address
    · subst hwa
      exact ⟨ha, lookupHA_updateHA_self _ _ _⟩
    · rw [lookupHA_updateHA_ne st.haveAmounts u.address w ha hwa]
      exact hInv.2 w hw
  by_cases hc1 : (P.isEnough.wellIsIt ha1.credits.length ha1.isSegwit ha1.amount &&
      P.inputComparator.isNone) = true
  · rw [if_pos hc1]
    refine ⟨fun h => absurd h (by simp), ?_, ?_⟩
    · exact updateHA_HaveOkW P st.haveAmounts hInv.1 u.address ha2 hlen2 hflag2 haddr2
    · intro w hw
      have : w = u.address := by
        have : some u.address = some w := hw
        exact (Option.some.inj this).symm
      subst this
      exact ⟨ha2, lookupHA_updateHA_self _ _ _⟩
  · rw [if_neg hc1]
    by_cases hc2 : AmountCount.overLimit ha2 P.maxInputs = false
    · rw [if_pos hc2]
      have hok : HaveOk P (updateHA st.haveAmounts u.address ha2) :=
        updateHA_HaveOk P st.haveAmounts hInv.1 u.address ha2 hc2 hflag2 haddr2
      refine ⟨fun _ => ⟨hok, hwinner ha2⟩, HaveOk_toW P _ hok, hwinner ha2⟩
    · rw [if_neg hc2]
      by_cases hc3 : (P.isEnough.isSweeping && P.inputComparator.isNone) = true
      · rw [if_pos hc3]
        refine ⟨fun h => absurd h (by simp), ?_, ?_⟩
        · exact updateHA_HaveOkW P st.haveAmounts hInv.1 u.address ha2 hlen2 hflag2 haddr2
        · intro w hw
          have : w = u.address := by
            have : some u.address = some w := hw
            exact (Option.some.inj this).symm
          subst this
          exact ⟨ha2, lookupHA_updateHA_self _ _ _⟩
      · rw [if_neg hc3]
        have hover : ha2.credits.length > capSlack P.maxInputs ha2.isSegwit := by
          by_contra hle
          exact hc2 ((overLimit_false_iff ha2 P.maxInputs).mpr (by omega))
        have hne : ha2.credits ≠ [] := by
          intro he
          rw [he] at hover
          simp at hover
        have hexact := dropWorst_exact P.cmp ha2 u hrefl hne
        have hflag3 : (dropWorst P.cmp ha2 (worstOf ha2 u)).isSegwit = ha2.isSegwit :=
          (dropWorst_le P.cmp ha2 (worstOf ha2 u)).2.1
        have hover3 : (dropWorst P.cmp ha2 (worstOf ha2 u)).overLimit P.maxInputs = false := by
          rw [overLimit_false_iff, hflag3]
          omega
        have hok : HaveOk P (updateHA st.haveAmounts u.address
            (dropWorst P.cmp ha2 (worstOf ha2 u))) :=
          updateHA_HaveOk P st.haveAmounts hInv.1 u.address _ hover3
            (hflag3.trans hflag2)
            (fun x hx => haddr2 x ((dropWorst_le P.cmp ha2 (worstOf ha2 u)).2.2 x hx))
        exact ⟨fun _ => ⟨hok, hwinner _⟩, HaveOk_toW P _ hok, hwinner _⟩

theorem ScanOkS_to_ScanOk (P : ScanParams) (st : ScanState) (h : ScanOkS P st) :
    ScanOk P st :=
  ⟨HaveOk_toW P _ h.1, h.2⟩

theorem visit_preserves (P : ScanParams) (st : ScanState) (u : Unspent)
    (hrefl : ∀ a, P.cmp a a = 0) (hInv : ScanOkS P st) :
    ((visit P st u).2 = false → ScanOkS P (visit P st u).1) ∧
    ScanOk P (visit P st u).1 := by
  unfold visit
  split_ifs with h1 h2 h3 h4 h5 h6 h7 h8 <;>
    first
      | exact visitGroup_preserves P st u hrefl hInv
      | exact ⟨fun _ => hInv, ScanOkS_to_ScanOk P st hInv⟩

theorem initState_ScanOkS (P : ScanParams) : ScanOkS P initState :=
  ⟨fun p hp => absurd hp (List.not_mem_nil p), fun w hw => by simp [initState] at hw⟩

theorem runScan_ScanOk (P : ScanParams) (hrefl : ∀ a, P.cmp a a = 0) :
    ∀ (us : List Unspent) (st : ScanState), ScanOkS P st →
      ScanOk P (runScan P us st) := by
  intro us
  induction us with
  | nil => exact fun st h => ScanOkS_to_ScanOk P st h
  | cons u us ih =>
    intro st h
    show ScanOk P (if (visit P st u).2 then (visit P st u).1
      else runScan P us (visit P st u).1)
    by_cases hb : (visit P st u).2 = true
    · simp only [hb, if_true]
      exact (visit_preserves P st u hrefl h).2
    · simp only [hb, if_false, Bool.false_eq_true]
      refine ih (visit P st u).1 ((visit_preserves P st u hrefl h).1 ?_)
      simp only [Bool.not_eq_true] at hb
      exact hb

theorem rescanWinner_cases (P : ScanParams) (gs : List (String × AmountCount)) :
    ∀ (w0 : Option String) (w : String), rescanWinner P gs w0 = some w →
      (∃ ac, (w, ac) ∈ gs) ∨ w0 = some w := by
  induction gs with
  | nil => exact fun w0 w h => Or.inr h
  | cons p t ih =>
    intro w0 w h
    have h1 : rescanWinner P t (if P.isEnough.wellIsIt p.2.credits.length
        p.2.isSegwit p.2.amount then some p.1 else w0) = some w := h
    rcases ih _ w h1 with ⟨ac, hac⟩ | heq
    · exact Or.inl ⟨ac, List.mem_cons_of_mem p hac⟩
    · by_cases hc : P.isEnough.wellIsIt p.2.credits.length p.2.isSegwit p.2.amount = true
      · rw [if_pos hc] at heq
        have hw : p.1 = w := Option.some.inj heq
        refine Or.inl ⟨p.2, ?_⟩
        rcases p with ⟨k, ac⟩
        cases hw
        simp
      · rw [if_neg hc] at heq
        exact Or.inr heq

theorem finalWinner_lookup (P : ScanParams) (st : ScanState) (ord : List String)
    (w : String) (hok : ScanOk P st)
    (h : finalWinner P st (orderedGroups st ord) = some w) :
    ∃ ac, lookupHA st.haveAmounts w = some ac := by
  unfold finalWinner at h
  split_ifs at h with hc
  · rcases rescanWinner_cases P _ _ w h with ⟨ac, hac⟩ | hw0
    · exact ⟨ac, orderedGroups_lookup st ord (w, ac) hac⟩
    · exact hok.2 w hw0
  · exact hok.2 w h

theorem getD_treeRight_mem (l : List Unspent) (d : Unspent) (h : l ≠ []) :
    (treeRight l).getD d ∈ l := by
  unfold treeRight
  cases hg : l.getLast? with
  | none => exact absurd (List.getLast?_eq_none_iff.mp hg) h
  | some x =>
    simp only [Option.getD_some]
    exact List.mem_of_mem_getLast? (by simp [hg])

theorem evictLoop_pool_facts (P : ScanParams) :
    ∀ (fuel : Nat) (fb : FallbackState),
      (evictLoop P fuel fb).pool.isSegwit = fb.pool.isSegwit ∧
      ∀ x ∈ (evictLoop P fuel fb).pool.credits, x ∈ fb.pool.credits := by
  intro fuel
  induction fuel with
  | zero => exact fun fb => ⟨rfl, fun x hx => hx⟩
  | succ n ih =>
    intro fb
    simp only [evictLoop]
    by_cases hov : fb.pool.overLimit P.maxInputs = true
    · rw [if_pos hov]
      refine ⟨(ih _).1, fun x hx => ?_⟩
      exact mem_treeRemove PreferBiggest _ fb.pool.credits x ((ih _).2 x hx)
    · rw [if_neg hov]
      exact ⟨rfl, fun x hx => hx⟩

theorem evictLoop_notOver (P : ScanParams) :
    ∀ (fuel : Nat) (fb : FallbackState), fb.pool.credits.length ≤ fuel →
      (evictLoop P fuel fb).pool.overLimit P.maxInputs = false := by
  intro fuel
  induction fuel with
  | zero =>
    intro fb h
    show fb.pool.overLimit P.maxInputs = false
    exact (overLimit_false_iff _ _).mpr (by omega)
  | succ n ih =>
    intro fb h
    simp only [evictLoop]
    by_cases hov : fb.pool.overLimit P.maxInputs = true
    · rw [if_pos hov]
      apply ih
      have hgt : fb.pool.credits.length > capSlack P.maxInputs fb.pool.isSegwit := by
        by_contra hle
        rw [(overLimit_false_iff fb.pool P.maxInputs).mpr (by omega)] at hov
        simp at hov
      have hne : fb.pool.credits ≠ [] := by
        intro he
        rw [he] at hgt
        simp at hgt
      have hmem : (treeRight fb.pool.credits).getD defaultUnspent ∈ fb.pool.credits :=
        getD_treeRight_mem fb.pool.credits defaultUnspent hne
      have hrem := treeRemove_length_of_found PreferBiggest
        ((treeRight fb.pool.credits).getD defaultUnspent) fb.pool.credits
        ⟨_, hmem, PreferBiggest_refl _⟩
      show (treeRemove PreferBiggest ((treeRight fb.pool.credits).getD defaultUnspent)
        fb.pool.credits).length ≤ n
      omega
    · rw [if_neg hov]
      simp only [Bool.not_eq_true] at hov
      exact hov

theorem mem_foldl_treePut :
    ∀ (l : List Unspent) (c0 : List Unspent) (x : Unspent),
      x ∈ l.foldl (fun c u => treePut PreferBiggest u c) c0 → x ∈ c0 ∨ x ∈ l := by
  intro l
  induction l with
  | nil => exact fun c0 x hx => Or.inl hx
  | cons y ys ih =>
    intro c0 x hx
    rcases ih (treePut PreferBiggest y c0) x hx with h | h
    · rcases mem_treePut PreferBiggest y c0 x h with rfl | h
      · exact Or.inr (by simp)
      · exact Or.inl h
    · exact Or.inr (by simp [h])

theorem foldOne_preserves (P : ScanParams) (fb : FallbackState)
    (g : String × AmountCount) (hfb : PoolOk P fb)
    (hg : g.2.isSegwit = P.isSegwitAddr g.1 ∧ ∀ x ∈ g.2.credits, x.address = g.1) :
    PoolOk P (foldOne P fb g) := by
  unfold foldOne
  by_cases hd : fb.done = true
  · rw [if_pos hd]
    exact hfb
  · rw [if_neg hd]
    set pool1 : AmountCount :=
      { amount := fb.pool.amount,
        isSegwit := fb.pool.isSegwit && g.2.isSegwit,
        credits := g.2.credits.foldl (fun c u => treePut PreferBiggest u c)
          fb.pool.credits } with hpool1
    have hfb1 : PoolOk P (evictLoop P (pool1.credits.length + 1) { fb with pool := pool1 }) := by
      constructor
      · exact evictLoop_notOver P (pool1.credits.length + 1) { fb with pool := pool1 }
          (Nat.le_succ _)
      · intro hsw x hx
        obtain ⟨e1, e2⟩ := evictLoop_pool_facts P (pool1.credits.length + 1)
          { fb with pool := pool1 }
        rw [e1] at hsw
        have hsw1 : fb.pool.isSegwit = true ∧ g.2.isSegwit = true := by
          have : (fb.pool.isSegwit && g.2.isSegwit) = true := hsw
          exact ⟨(Bool.and_eq_true _ _).mp this |>.1, (Bool.and_eq_true _ _).mp this |>.2⟩
        rcases mem_foldl_treePut g.2.credits fb.pool.credits x (e2 x hx) with h | h
        · exact hfb.2 hsw1.1 x h
        · rw [hg.2 x h, ← hg.1]
          exact hsw1.2
    dsimp only
    split_ifs with hc1 hc2
    · exact hfb1
    · exact ⟨hfb1.1, hfb1.2⟩
    · exact hfb1

theorem initFallback_PoolOk (P : ScanParams) (st : ScanState) :
    PoolOk P (initFallback st) := by
  constructor
  · exact (overLimit_false_iff _ _).mpr (by simp [initFallback])
  · intro _ x hx
    simp [initFallback] at hx

theorem foldl_foldOne_PoolOk (P : ScanParams) :
    ∀ (gs : List (String × AmountCount)) (fb : FallbackState), PoolOk P fb →
      (∀ g ∈ gs, g.2.isSegwit = P.isSegwitAddr g.1 ∧
        ∀ x ∈ g.2.credits, x.address = g.1) →
      PoolOk P (gs.foldl (foldOne P) fb) := by
  intro gs
  induction gs with
  | nil => exact fun fb h _ => h
  | cons g t ih =>
    intro fb h hgs
    exact ih (foldOne P fb g) (foldOne_preserves P fb g h (hgs g (by simp)))
      (fun q hq => hgs q (List.mem_cons_of_mem g hq))

theorem fallbackFB_PoolOk (P : ScanParams) (st : ScanState)
    (gs : List (String × AmountCount))
    (hgs : ∀ g ∈ gs, g.2.isSegwit = P.isSegwitAddr g.1 ∧
      ∀ x ∈ g.2.credits, x.address = g.1) :
    PoolOk P (fallbackFB P st gs) :=
  foldl_foldOne_PoolOk P gs (initFallback st) (initFallback_PoolOk P st) hgs

/-- Claim C2 amended: the final selected set of findEligibleOutputs never
exceeds the default caps (at most 499 inputs when some selected member is
not segwit-capable, at most 1460 in any case without an override); with a
caller override maxInputs > 0 the no-custom-comparator early-winner
short-circuits may keep one input past the override, so the bound is
maxInputs + 1 rather than maxInputs. -/
theorem C2_amended_cap_bounds (P : ScanParams) (stream : List Unspent)
    (ord : List String) (hrefl : ∀ a, P.cmp a a = 0) :
    (0 < P.maxInputs →
      (findEligibleOutputs P stream ord).1.credits.length ≤ P.maxInputs.toNat + 1) ∧
    (P.maxInputs ≤ 0 →
      (findEligibleOutputs P stream ord).1.credits.length ≤ MaxInputsPerTx) ∧
    (P.maxInputs ≤ 0 →
      (∃ u ∈ (findEligibleOutputs P stream ord).1.credits,
        P.isSegwitAddr u.address = false) →
      (findEligibleOutputs P stream ord).1.credits.length ≤ MaxInputsPerTxLegacy) := by
  have hok : ScanOk P (scanFinal P stream) :=
    runScan_ScanOk P hrefl stream initState (initState_ScanOkS P)
  have H : ∃ sw : Bool,
      (findEligibleOutputs P stream ord).1.credits.length ≤
        capSlack P.maxInputs sw + 1 ∧
      ((∃ u ∈ (findEligibleOutputs P stream ord).1.credits,
        P.isSegwitAddr u.address = false) → sw = false) := by
    cases hfw : finalWinner P (scanFinal P stream)
        (orderedGroups (scanFinal P stream) ord) with
    | some w =>
      obtain ⟨ac, hlk⟩ := finalWinner_lookup P (scanFinal P stream) ord w hok hfw
      have hcred : (findEligibleOutputs P stream ord).1.credits = ac.credits := by
        simp only [findEligibleOutputs, findEligibleOutputsFull, hfw, winnerEO, hlk,
          Option.getD_some]
      obtain ⟨hb1, hb2, hb3⟩ :=
        hok.1 (w, ac) (lookupHA_mem (scanFinal P stream).haveAmounts w ac hlk)
      refine ⟨ac.isSegwit, ?_, ?_⟩
      · rw [hcred]
        exact hb1
      · intro hex
        obtain ⟨x, hx, hxsw⟩ := hex
        rw [hcred] at hx
        rw [hb2, ← hb3 x hx]
        exact hxsw
    | none =>
      have hgs : ∀ g ∈ orderedGroups (scanFinal P stream) ord,
          g.2.isSegwit = P.isSegwitAddr g.1 ∧
          ∀ x ∈ g.2.credits, x.address = g.1 := by
        intro g hg
        have hlk := orderedGroups_lookup (scanFinal P stream) ord g hg
        obtain ⟨-, h2, h3⟩ :=
          hok.1 (g.1, g.2) (lookupHA_mem (scanFinal P stream).haveAmounts g.1 g.2 hlk)
        exact ⟨h2, h3⟩
      have hpool := fallbackFB_PoolOk P (scanFinal P stream)
        (orderedGroups (scanFinal P stream) ord) hgs
      have hcred : (findEligibleOutputs P stream ord).1.credits =
          (fallbackFB P (scanFinal P stream)
            (orderedGroups (scanFinal P stream) ord)).pool.credits := by
        simp only [findEligibleOutputs, findEligibleOutputsFull, hfw]
      refine ⟨(fallbackFB P (scanFinal P stream)
        (orderedGroups (scanFinal P stream) ord)).pool.isSegwit, ?_, ?_⟩
      · rw [hcred]
        exact Nat.le_succ_of_le ((overLimit_false_iff _ _).mp hpool.1)
      · intro hex
        obtain ⟨x, hx, hxsw⟩ := hex
        rw [hcred] at hx
        by_contra hne
        simp only [Bool.not_eq_false] at hne
        rw [hpool.2 hne x hx] at hxsw
        simp at hxsw
  obtain ⟨sw, h1, h2⟩ := H
  have hmt : MaxInputsPerTx = 1460 := rfl
  have hml : MaxInputsPerTxLegacy = 499 := rfl
  refine ⟨?_, ?_, ?_⟩
  · intro hm
    rw [capSlack_pos_eq P.maxInputs sw hm] at h1
    exact h1
  · intro hm
    have hcs := capSlack_le_default P.maxInputs sw hm
    omega
  · intro hm hex
    have hsw := h2 hex
    rw [hsw, capSlack_legacy P.maxInputs hm] at h1
    omega

/-- Claim C2 witness at a concrete input: the override-plus-one bound at
the sweep short-circuit counterexample configuration. -/
theorem C2_amended_cap_bounds_witness :
    (findEligibleOutputs PsweepOv [uA, uA2] ["a"]).1.credits.length ≤
      PsweepOv.maxInputs.toNat + 1 :=
  (C2_amended_cap_bounds PsweepOv [uA, uA2] ["a"]
    (fun a => PreferBiggest_refl a)).1 (by decide)

end Pktd
